import Mathlib

set_option linter.unusedVariables false

/-!
Shallow embedding of the transaction/state reconciliation core of the editor
(`src/state/src/transaction.ts`, the `EditorState` module, and the content-view
dirty-mark machinery of `src/view/src/contentview.ts`), together with proofs
about the embedded operations.

The `Change`/`ChangeSet` classes, the selection module and the `Text` rope are
external collaborators whose sources are not part of the excerpt; they are
modelled from the specification's description of them (each such definition
carries a `Modelled from the spec:` comment).  The document is modelled by its
character sequence, state-field values by naturals and annotation values by
integers.  JS exceptions are modelled with `Except`.
-/

/-- Errors thrown by the embedded code: JS `RangeError` and the generic `Error`. -/
inductive Err where
  | rangeError : String → Err
  | genericError : String → Err
deriving DecidableEq, Repr

/-- State-field values (JS `any`), modelled by naturals; JS falsiness of a value is `= 0`. -/
abbrev Val := Nat

/-- Annotation values (JS `any`), modelled by integers (the `time` annotation holds a number). -/
abbrev AVal := Int

/-- Modelled from the spec: the external `Text` document, reduced to its character sequence. -/
abbrev Doc := List Char

/-- Modelled from the spec (`change.ts` is not part of the excerpt): a `Change` replaces the
document range `[from, to)` with the given content.  Positions are integers because the
bounds checks in `transaction.ts` compare against `0`. -/
structure Change where
  from' : Int
  to' : Int
  text : List Char
deriving DecidableEq, Repr, Inhabited

/-- Modelled from the spec: `length` is the net size delta of the change. -/
def Change.length (c : Change) : Int :=
  (c.text.length : Int) - (c.to' - c.from')

/-- Modelled from the spec: applying a change replaces `[from, to)` with the content. -/
def Change.apply (c : Change) (d : Doc) : Doc :=
  d.take c.from'.toNat ++ c.text ++ d.drop c.to'.toNat

/-- Modelled from the spec: the inverse change replaces the span occupied by the inserted
content with the text the change deleted, so that applying it to the changed document
restores the original one. -/
def Change.invert (c : Change) (d : Doc) : Change :=
  ⟨c.from', c.from' + (c.text.length : Int), (d.drop c.from'.toNat).take (c.to'.toNat - c.from'.toNat)⟩

/-- Modelled from the spec: a position maps through a change by shifting positions behind the
edited span by the size delta and clamping positions inside the span to its start. -/
def Change.mapPos (c : Change) (pos : Int) : Int :=
  if pos ≤ c.from' then pos
  else if c.to' ≤ pos then pos + Change.length c
  else c.from'

/-- The bounds check of `Transaction.change` (`transaction.ts` line 84), negated: the change
stays inside the document it is applied to. -/
def Change.validb (c : Change) (d : Doc) : Bool :=
  decide (0 ≤ c.from') && decide (c.from' ≤ c.to') && decide (c.to' ≤ (d.length : Int))

/-- Modelled from the spec: an ordered sequence of changes plus the flat `mirror` index array
pairing changes that are inverses of one another. -/
structure ChangeSet where
  changes : List Change
  mirror : List Nat
deriving DecidableEq, Repr

/-- `ChangeSet.empty`. -/
def ChangeSet.empty : ChangeSet := ⟨[], []⟩

/-- `ChangeSet.length` (the number of changes in the set). -/
def ChangeSet.length (cs : ChangeSet) : Nat := cs.changes.length

/-- Modelled from the spec: `append` adds a change at the end; when a mirror index is given,
the pair (index of the new change, given index) is recorded in the mirror array. -/
def ChangeSet.append (cs : ChangeSet) (c : Change) (mirror : Option Nat) : ChangeSet :=
  ⟨cs.changes ++ [c],
   match mirror with
   | some m => cs.mirror ++ [cs.changes.length, m]
   | none => cs.mirror⟩

/-- Modelled from the spec: `partialMapping(fromIndex)` is the position mapping through the
changes committed after the given index; mapping through it applies each change's effect on
offsets sequentially. -/
def ChangeSet.partialMapping (cs : ChangeSet) (fromIndex : Nat) : List Change :=
  cs.changes.drop fromIndex

/-- Mapping a position through a sequence of changes, one change at a time. -/
def mapPosList (cs : List Change) (pos : Int) : Int :=
  cs.foldl (fun p c => Change.mapPos c p) pos

/-- Modelled from the spec: a selection range is an `anchor`/`head` pair. -/
structure SelectionRange where
  anchor : Int
  head : Int
deriving DecidableEq, Repr, Inhabited

/-- `from` of a range: the smaller end. -/
def SelectionRange.from' (r : SelectionRange) : Int := min r.anchor r.head

/-- `to` of a range: the larger end. -/
def SelectionRange.to' (r : SelectionRange) : Int := max r.anchor r.head

/-- Modelled from the spec: a range maps through changes by mapping both of its ends. -/
def SelectionRange.mapThrough (r : SelectionRange) (cs : List Change) : SelectionRange :=
  ⟨mapPosList cs r.anchor, mapPosList cs r.head⟩

/-- Modelled from the spec: an ordered set of ranges with a primary index. -/
structure EditorSelection where
  ranges : List SelectionRange
  primaryIndex : Nat
deriving DecidableEq, Repr

/-- Modelled from the spec: a single-cursor selection. -/
def EditorSelection.single (pos : Int) : EditorSelection := ⟨[⟨pos, pos⟩], 0⟩

/-- The primary range of a selection. -/
def EditorSelection.primary (sel : EditorSelection) : SelectionRange :=
  sel.ranges.getD sel.primaryIndex ⟨0, 0⟩

/-- Modelled from the spec: `asSingle` collapses a multi-range selection to its primary range. -/
def EditorSelection.asSingle (sel : EditorSelection) : EditorSelection :=
  if sel.ranges.length == 1 then sel else ⟨[ EditorSelection.primary sel], 0⟩

/-- Mapping every range of a selection through a single change (used by `Transaction.change`). -/
def EditorSelection.mapChange (sel : EditorSelection) (c : Change) : EditorSelection :=
  ⟨sel.ranges.map (fun r => SelectionRange.mapThrough r [c]), sel.primaryIndex⟩

/-- Insertion step for sorting index-tagged ranges by their `from` position. -/
def insertSorted (r : SelectionRange × Nat) :
    List (SelectionRange × Nat) → List (SelectionRange × Nat)
  | [] => [r]
  | q :: rest =>
    if SelectionRange.from' r.1 < SelectionRange.from' q.1 then r :: q :: rest
    else q :: insertSorted r rest

/-- Merge step: fold a sorted range into the (reversed) list of merged groups, combining it
with the latest group when they overlap.  Each group remembers the original indices of the
ranges it absorbed. -/
def mergeInto (acc : List (SelectionRange × List Nat)) (r : SelectionRange × Nat) :
    List (SelectionRange × List Nat) :=
  match acc with
  | [] => [(r.1, [r.2])]
  | (g, idxs) :: rest =>
    if SelectionRange.from' r.1 ≤ SelectionRange.to' g then
      (⟨min (SelectionRange.from' g) (SelectionRange.from' r.1),
        max (SelectionRange.to' g) (SelectionRange.to' r.1)⟩, idxs ++ [r.2]) :: rest
    else (r.1, [r.2]) :: (g, idxs) :: rest

/-- Modelled from the spec (`selection.ts` is not part of the excerpt): selection construction
sorts the ranges by position, merges overlapping ranges, and keeps the primary index pointing
at the range that absorbed the requested primary. -/
def EditorSelection.create (ranges : List SelectionRange) (primaryIndex : Nat) : EditorSelection :=
  let sorted := (ranges.zip (List.range ranges.length)).foldr insertSorted []
  let groups := (sorted.foldl mergeInto []).reverse
  ⟨groups.map Prod.fst, groups.findIdx (fun g => g.2.contains primaryIndex)⟩

/-- The external configuration resolver is out of scope; a resolved configuration is modelled
by the data the excerpt queries from it: the `stateField` behavior (the declared field ids,
in order) and the `allowMultipleSelections` behavior. -/
structure Configuration where
  stateFields : List Nat
  allowMultipleSelections : Bool
deriving DecidableEq, Repr

/-- Lookup in the field-value table (`values[id]`); `none` models an absent property. -/
def lookupVal : List (Nat × Val) → Nat → Option Val
  | [], _ => none
  | (k, v) :: rest, id => if k = id then some v else lookupVal rest id

/-- Assignment in the field-value table (`values[id] = v`). -/
def setVal : List (Nat × Val) → Nat → Val → List (Nat × Val)
  | [], id, v => [(id, v)]
  | (k, w) :: rest, id, v => if k = id then (id, v) :: rest else (k, w) :: setVal rest id v

/-- The editor state (`EditorState`, state.ts): configuration, field values, document and
selection. -/
structure EditorState where
  configuration : Configuration
  values : List (Nat × Val)
  doc : Doc
  selection : EditorSelection
deriving DecidableEq, Repr

/-- The `EditorState` constructor (state.ts lines 38-51): it walks the selection ranges and
throws a `RangeError` as soon as one ends past the document end; otherwise the state is
built from the four components unchanged. -/
def mkEditorState (cfg : Configuration) (values : List (Nat × Val)) (doc : Doc)
    (selection : EditorSelection) : Except Err EditorState :=
  if selection.ranges.all (fun r => decide (SelectionRange.to' r ≤ (doc.length : Int))) then
    .ok ⟨cfg, values, doc, selection⟩
  else .error (.rangeError "Selection points outside of document")

/-- A transaction annotation: a type tag paired with a value (extension.ts `Annotation`).
Annotation types are modelled by natural tags. -/
structure Annot where
  type : Nat
  value : AVal
deriving DecidableEq, Repr

/-- The annotation type used to store transaction timestamps (`Transaction.time`). -/
def timeType : Nat := 0

/-- A transaction (transaction.ts): the start state, the accumulated `ChangeSet`, the document
snapshots after each change, the pending selection, the annotation list, the bit flags
(`SelectionSet = 1`, `ScrollIntoView = 2`, `Reconfigure = 4`), the (possibly replaced)
configuration and the memoized result state (`null` while the transaction is open). -/
structure Transaction where
  startState : EditorState
  changes : ChangeSet
  docs : List Doc
  selection : EditorSelection
  annots : List Annot
  flags : Nat
  configuration : Configuration
  state : Option EditorState
deriving DecidableEq, Repr

/-- The `Transaction` constructor (transaction.ts lines 33-42), reached through
`EditorState.t(timestamp)`: the selection and configuration are taken from the start state
and the annotation list starts as the single time annotation.  (In the source the timestamp
defaults to `Date.now()`; the default is environmental and the timestamp is explicit here.) -/
def EditorState.t (st : EditorState) (time : Int) : Transaction :=
  ⟨st, ChangeSet.empty, [], st.selection, [⟨timeType, time⟩], 0, st.configuration, none⟩

/-- `Transaction.doc` (transaction.ts lines 45-48): the last document snapshot, or the start
state's document when there is none. -/
def Transaction.doc (tr : Transaction) : Doc :=
  tr.docs.getLastD tr.startState.doc

/-- The message of the invalid-operation error thrown on a frozen transaction. -/
def frozenMsg : String := "Transactions may not be modified after being applied"

/-- `Transaction.ensureOpen` (transaction.ts lines 184-186). -/
def Transaction.ensureOpen (tr : Transaction) : Except Err Unit :=
  match tr.state with
  | some _ => .error (.genericError frozenMsg)
  | none => .ok ()

/-- `Transaction.annotate` (transaction.ts lines 52-56), with the varargs as a list. -/
def Transaction.annotate (tr : Transaction) (anns : List Annot) : Except Err Transaction :=
  match Transaction.ensureOpen tr with
  | .error e => .error e
  | .ok _ => .ok { tr with annots := tr.annots ++ anns }

/-- The single-value annotation lookup (transaction.ts lines 59-63, method `annotation`): scan
the annotation list from the end and return the first value with the given type tag.  The
scan from the back is realized structurally: a match in the tail wins over the head. -/
def Transaction.annotationValue : Transaction → Nat → Option AVal :=
  fun tr ty => lastMatch tr.annots ty
where
  lastMatch : List Annot → Nat → Option AVal
    | [], _ => none
    | a :: rest, ty =>
      match lastMatch rest ty with
      | some v => some v
      | none => if a.type == ty then some a.value else none

/-- `Transaction.annotations` (transaction.ts lines 67-76): collect, in order, every value
with the given type tag. -/
def Transaction.annotations (tr : Transaction) (ty : Nat) : List AVal :=
  tr.annots.foldl (fun found a => if a.type == ty then found ++ [a.value] else found) []

/-- `Transaction.change` (transaction.ts lines 81-90): fails when the transaction is applied;
is a no-op for a true empty edit; throws a `RangeError` when the change's bounds fall outside
the current document; otherwise appends the change, pushes the resulting document snapshot
and maps the pending selection through the change. -/
def Transaction.change (tr : Transaction) (c : Change) (mirror : Option Nat) :
    Except Err Transaction :=
  match Transaction.ensureOpen tr with
  | .error e => .error e
  | .ok _ =>
    if c.from' = c.to' ∧ Change.length c = 0 then .ok tr
    else if c.from' < 0 ∨ c.to' < c.from' ∨ ((Transaction.doc tr).length : Int) < c.to' then
      .error (.rangeError "Invalid change")
    else
      .ok { tr with
            changes := ChangeSet.append tr.changes c mirror,
            docs := tr.docs ++ [Change.apply c (Transaction.doc tr)],
            selection := EditorSelection.mapChange tr.selection c }

/-- `Transaction.setSelection` (transaction.ts lines 133-138): replace the pending selection,
collapsing it to a single range when the `allowMultipleSelections` behavior is off, and set
the `SelectionSet` flag. -/
def Transaction.setSelection (tr : Transaction) (selection : EditorSelection) :
    Except Err Transaction :=
  match Transaction.ensureOpen tr with
  | .error e => .error e
  | .ok _ =>
    .ok { tr with
          selection := if tr.startState.configuration.allowMultipleSelections then selection
                       else EditorSelection.asSingle selection,
          flags := tr.flags ||| 1 }

/-- `Transaction.scrollIntoView` (transaction.ts lines 149-153). -/
def Transaction.scrollIntoView (tr : Transaction) : Except Err Transaction :=
  match Transaction.ensureOpen tr with
  | .error e => .error e
  | .ok _ => .ok { tr with flags := tr.flags ||| 2 }

/-- `Transaction.replaceExtensions` (transaction.ts lines 164-169).  The external resolver's
`configuration.replaceExtensions(replace)` is modelled by its resulting configuration. -/
def Transaction.replaceExtensions (tr : Transaction) (newCfg : Configuration) :
    Except Err Transaction :=
  match Transaction.ensureOpen tr with
  | .error e => .error e
  | .ok _ => .ok { tr with configuration := newCfg, flags := tr.flags ||| 4 }

/-- `Transaction.reconfigure` (transaction.ts lines 172-177).  The external
`extendState.resolve(extensions)` is modelled by its resulting configuration. -/
def Transaction.reconfigure (tr : Transaction) (newCfg : Configuration) :
    Except Err Transaction :=
  match Transaction.ensureOpen tr with
  | .error e => .error e
  | .ok _ => .ok { tr with configuration := newCfg, flags := tr.flags ||| 4 }

/-- A state field's behavior functions (extension.ts `StateField`): the initializer and the
incremental updater.  The updater receives the old value as an `Option` because the source
passes `this.values[field.id]`, which is `undefined` when the value is absent.  Field objects
are identified by their numeric id; the id-to-implementation map is passed explicitly. -/
structure FieldImpl where
  init : EditorState → Val
  apply : Transaction → Option Val → EditorState → Val

/-- `EditorState.applyTransaction` (state.ts lines 72-80): construct the new state (which
validates the selection), then fill in every declared field's value, either incrementally
(when the configuration is unchanged or the old state owned the field) or freshly.  The JS
code mutates the new state's `values` object inside the loop; this is modelled by threading
the accumulated values through each field computation. -/
def EditorState.applyTransaction (env : Nat → FieldImpl) (st : EditorState)
    (tr : Transaction) : Except Err EditorState :=
  let cfg := tr.configuration
  match mkEditorState cfg [] (Transaction.doc tr) tr.selection with
  | .error e => .error e
  | .ok _ =>
    let values := cfg.stateFields.foldl
      (fun vals id =>
        if cfg = st.configuration ∨ (lookupVal st.values id).isSome then
          setVal vals id
            ((env id).apply tr (lookupVal st.values id) ⟨cfg, vals, Transaction.doc tr, tr.selection⟩)
        else
          setVal vals id ((env id).init ⟨cfg, vals, Transaction.doc tr, tr.selection⟩)) []
    .ok ⟨cfg, values, Transaction.doc tr, tr.selection⟩

/-- `Transaction.apply` (transaction.ts lines 191-193): return the memoized state, or compute
it once via `applyTransaction` and cache it.  The caching mutates the transaction, so the
updated transaction is returned alongside the state. -/
def Transaction.apply (env : Nat → FieldImpl) (tr : Transaction) :
    Except Err (EditorState × Transaction) :=
  match tr.state with
  | some s => .ok (s, tr)
  | none =>
    match EditorState.applyTransaction env tr.startState tr with
    | .error e => .error e
    | .ok s => .ok (s, { tr with state := some s })

/-- `EditorState.field` (state.ts lines 56-69): absent values fail with a `RangeError` — with
a dedicated message when the field is declared in the configuration but not yet initialized
(that case fails regardless of `require`) — unless `require` is `false`, in which case
`undefined` is returned. -/
def EditorState.field (st : EditorState) (id : Nat) (require : Bool) :
    Except Err (Option Val) :=
  match lookupVal st.values id with
  | none =>
    if st.configuration.stateFields.contains id then
      .error (.rangeError "Field has not been initialized yet")
    else if require then .error (.rangeError "Field is not present in this state")
    else .ok none
  | some v => .ok (some v)

/-- `EditorState.create` (state.ts lines 125-140): resolve the configuration (external,
modelled by its result), default the selection to a cursor at 0, collapse it when multiple
selections are not allowed, construct the state (which validates the selection), then
initialize every declared field, failing on a duplicate (JS truthiness of the existing
value, i.e. a nonzero value in this model). -/
def EditorState.create (env : Nat → FieldImpl) (cfg : Configuration) (doc : Doc)
    (selection : Option EditorSelection) : Except Err EditorState :=
  let sel0 := selection.getD (EditorSelection.single 0)
  let sel := if cfg.allowMultipleSelections then sel0 else EditorSelection.asSingle sel0
  match mkEditorState cfg [] doc sel with
  | .error e => .error e
  | .ok _ =>
    let r := cfg.stateFields.foldl
      (fun (acc : Except Err (List (Nat × Val))) id =>
        match acc with
        | .error e => .error e
        | .ok vals =>
          if (lookupVal vals id).getD 0 ≠ 0 then
            .error (.genericError "Duplicate use of state field")
          else .ok (setVal vals id ((env id).init ⟨cfg, vals, doc, sel⟩)))
      (.ok [])
    match r with
    | .error e => .error e
    | .ok values => .ok ⟨cfg, values, doc, sel⟩

/-- The JSON snapshot accepted by `EditorState.fromJSON`: an optional `doc` string (absent or
non-string `doc` is modelled by `none`) and the selection in its own JSON form (handled by
the external `EditorSelection.fromJSON`, modelled by the selection itself). -/
structure StateJson where
  doc : Option String
  selection : EditorSelection
deriving DecidableEq, Repr

/-- `EditorState.fromJSON` (state.ts lines 112-120): a missing object or a missing/non-string
`doc` fails with a `RangeError`; otherwise the state is built through `EditorState.create`. -/
def EditorState.fromJSON (env : Nat → FieldImpl) (cfg : Configuration)
    (json : Option StateJson) : Except Err EditorState :=
  match json with
  | none => .error (.rangeError "Invalid JSON representation for EditorState")
  | some j =>
    match j.doc with
    | none => .error (.rangeError "Invalid JSON representation for EditorState")
    | some d => EditorState.create env cfg d.toList (some j.selection)

/-- Applying a list of changes to a document in order. -/
def applyAll (cs : List Change) (d : Doc) : Doc :=
  cs.foldl (fun doc c => Change.apply c doc) d

/-- `Transaction.invertedChanges` (transaction.ts lines 197-203): an empty change set inverts
to the empty set; otherwise the changes are inverted in reverse order — change `i` against
the document version before it — and the mirror indices are reflected. -/
def Transaction.invertedChanges (tr : Transaction) : ChangeSet :=
  if tr.changes.changes.length = 0 then ChangeSet.empty
  else
    let set := tr.changes
    let changes := (List.range set.changes.length).reverse.map (fun i =>
      Change.invert (set.changes.getD i ⟨0, 0, []⟩)
        (if i = 0 then tr.startState.doc else tr.docs.getD (i - 1) []))
    ⟨changes,
     if set.mirror.length ≠ 0 then set.mirror.map (fun i => set.changes.length - i - 1)
     else set.mirror⟩

/-- The forward list of inverses of a change chain: the inverse of each change, taken against
the document version the change was applied to. -/
def invs (d0 : Doc) : List Change → List Change
  | [] => []
  | c :: cs => Change.invert c d0 :: invs (Change.apply c d0) cs

/-- Well-formedness of the change/snapshot chain a transaction accumulates: each change is
valid in the document it was applied to and each snapshot is the result of that application
(this is exactly what `Transaction.change` maintains). -/
def chainWF (d0 : Doc) : List Change → List Doc → Bool
  | [], [] => true
  | c :: cs, d :: ds => Change.validb c d0 && (d == Change.apply c d0) && chainWF d cs ds
  | _, _ => false

/-- Well-formedness of a transaction's accumulated data: the change/snapshot chain is
well-formed and every mirror index refers to an existing change. -/
def transactionWF (tr : Transaction) : Bool :=
  chainWF tr.startState.doc tr.changes.changes tr.docs &&
    tr.changes.mirror.all (fun i => i < tr.changes.changes.length)

/-- Every selection range of the state ends inside the document (the invariant the
`EditorState` constructor enforces). -/
def selectionInBounds (st : EditorState) : Prop :=
  ∀ r ∈ st.selection.ranges, SelectionRange.to' r ≤ (st.doc.length : Int)

/-- The loop of `Transaction.forEachRange` (transaction.ts lines 118-130): for each original
range, remap it through the changes committed since the call started (`partialMapping start`),
invoke the callback, remap the already-collected ranges through the changes the callback just
committed (only when it committed any), and push the result.  The callback is modelled as a
function from the received range and the current transaction to the returned range and the
mutated transaction. -/
def forEachRangeGo (f : SelectionRange → Transaction → Except Err (SelectionRange × Transaction))
    (start : Nat) :
    List SelectionRange → Transaction → List SelectionRange →
      Except Err (Transaction × List SelectionRange)
  | [], tr, acc => .ok (tr, acc)
  | r :: rest, tr, acc =>
    let before := tr.changes.changes.length
    match f (SelectionRange.mapThrough r (ChangeSet.partialMapping tr.changes start)) tr with
    | .error e => .error e
    | .ok (result, tr') =>
      let acc' := if before < tr'.changes.changes.length then
          acc.map (fun q => SelectionRange.mapThrough q (ChangeSet.partialMapping tr'.changes before))
        else acc
      forEachRangeGo f start rest tr' (acc' ++ [result])

/-- `Transaction.forEachRange` (transaction.ts lines 118-130): run the loop over the ranges
of the selection captured at call start, then set the selection to the collected ranges with
the original primary index. -/
def Transaction.forEachRange (tr : Transaction)
    (f : SelectionRange → Transaction → Except Err (SelectionRange × Transaction)) :
    Except Err Transaction :=
  let sel := tr.selection
  let start := tr.changes.changes.length
  match forEachRangeGo f start sel.ranges tr [] with
  | .error e => .error e
  | .ok (tr', newRanges) =>
    Transaction.setSelection tr' (EditorSelection.create newRanges sel.primaryIndex)

/-- The loop of `forEachRange` as the specification words it: the i-th invocation receives
the i-th original range remapped through all changes appended since the call started (the
accumulated `appended` list), and after each invocation every collected range is remapped
through exactly the changes that invocation appended. -/
def forEachRangeClaimGo
    (f : SelectionRange → Transaction → Except Err (SelectionRange × Transaction)) :
    List SelectionRange → Transaction → List Change → List SelectionRange →
      Except Err (Transaction × List SelectionRange)
  | [], tr, _, acc => .ok (tr, acc)
  | r :: rest, tr, appended, acc =>
    match f (SelectionRange.mapThrough r appended) tr with
    | .error e => .error e
    | .ok (result, tr') =>
      let delta := tr'.changes.changes.drop tr.changes.changes.length
      forEachRangeClaimGo f rest tr' (appended ++ delta)
        ((acc.map (fun q => SelectionRange.mapThrough q delta)) ++ [result])

/-- `forEachRange` as the specification words it (the reference point for the refinement
theorem): iterate the original ranges with the claim's remapping discipline, then set the
selection to the collected ranges with the original primary index. -/
def Transaction.forEachRangeClaimed (tr : Transaction)
    (f : SelectionRange → Transaction → Except Err (SelectionRange × Transaction)) :
    Except Err Transaction :=
  let sel := tr.selection
  match forEachRangeClaimGo f sel.ranges tr [] [] with
  | .error e => .error e
  | .ok (tr', newRanges) =>
    Transaction.setSelection tr' (EditorSelection.create newRanges sel.primaryIndex)

/-- `ContentView.markParentsDirty` (contentview.ts lines 134-141), acting on the chain of
ancestor dirty values (nearest ancestor first).  Dirty values are bitfields:
`Child = 1`, `Node = 2`. -/
def markParentsDirty (childList : Bool) : List Nat → List Nat
  | [] => []
  | d :: rest =>
    let d1 := if childList then d ||| 2 else d
    if d1 &&& 1 ≠ 0 then d1 :: rest
    else (d1 ||| 1) :: markParentsDirty false rest

/-- `ContentView.markDirty` (contentview.ts lines 128-132): a node already carrying the
self-dirty bit returns immediately; otherwise it gains the self-dirty bit and the ancestor
chain is walked by `markParentsDirty`. -/
def markDirty (dirty : Nat) (ancestors : List Nat) (andParent : Bool) : Nat × List Nat :=
  if dirty &&& 2 ≠ 0 then (dirty, ancestors)
  else (dirty ||| 2, markParentsDirty andParent ancestors)

/-- The upward walk as the claim words it: the walk stops as soon as it reaches an ancestor
already carrying a dirty mark greater than or equal to the propagated child-dirty mark (in
the spec's tri-state reading, any non-clean ancestor), and marks the ancestors before that
point child-dirty. -/
def markParentsDirtyClaimed : List Nat → List Nat
  | [] => []
  | d :: rest => if d ≠ 0 then d :: rest else 1 :: markParentsDirtyClaimed rest

/-- Concrete fixtures used by the witnesses. -/
def wCfg : Configuration := ⟨[], false⟩

def wDoc : Doc := ['a', 'b', 'c']

def wSel : EditorSelection := ⟨[⟨0, 0⟩], 0⟩

def wState : EditorState := ⟨wCfg, [], wDoc, wSel⟩

def wEnv : Nat → FieldImpl := fun _ => ⟨fun _ => 0, fun _ _ _ => 0⟩

def wTr : Transaction := EditorState.t wState 42

def wF : SelectionRange → Transaction → Except Err (SelectionRange × Transaction) :=
  fun r t => .ok (r, t)

def wTrApplied : Transaction := { wTr with state := some wState }

def wStateDecl : EditorState := ⟨⟨[7], false⟩, [], wDoc, wSel⟩

def wChange : Change := ⟨1, 2, ['X', 'Y']⟩

def wTrC1 : Transaction :=
  ⟨wState, ⟨[wChange], []⟩, [Change.apply wChange wDoc], wSel, [⟨timeType, 42⟩], 0, wCfg, none⟩

/-! ## Helper lemmas -/

/-- The structural back-to-front scan finds the last matching annotation value. -/
theorem lastMatch_eq_getLast (l : List Annot) (ty : Nat) :
    Transaction.annotationValue.lastMatch l ty
      = ((l.filter (fun a => a.type == ty)).map Annot.value).getLast? := by
  induction l with
  | nil => rfl
  | cons a rest ih =>
    rw [Transaction.annotationValue.lastMatch, ih, List.filter_cons]
    by_cases h : (a.type == ty) = true
    · rw [if_pos h, if_pos h, List.map_cons, List.getLast?_cons]
      cases hres : ((rest.filter (fun a => a.type == ty)).map Annot.value).getLast? with
      | none => rfl
      | some v => rfl
    · rw [if_neg h, if_neg h]
      cases hres : ((rest.filter (fun a => a.type == ty)).map Annot.value).getLast? with
      | none => rfl
      | some v => rfl

/-- The collecting fold of `Transaction.annotations` equals filtering then projecting. -/
theorem annotations_foldl (l : List Annot) (ty : Nat) (init : List AVal) :
    l.foldl (fun found a => if a.type == ty then found ++ [a.value] else found) init
      = init ++ (l.filter (fun a => a.type == ty)).map Annot.value := by
  induction l generalizing init with
  | nil => simp
  | cons a rest ih =>
    rw [List.foldl_cons, List.filter_cons]
    by_cases h : (a.type == ty) = true
    · rw [if_pos h, if_pos h, ih, List.map_cons, List.append_assoc]
      rfl
    · rw [if_neg h, if_neg h, ih]

/-- The walk of `markParentsDirty` with `childList = false` marks the child-dirty bit on every
ancestor up to (excluding) the first one that already carries it, and touches nothing else. -/
theorem markParentsDirty_false_eq (anc : List Nat) :
    markParentsDirty false anc
      = (anc.takeWhile (fun a => a &&& 1 == 0)).map (fun a => a ||| 1)
        ++ anc.dropWhile (fun a => a &&& 1 == 0) := by
  induction anc with
  | nil => rfl
  | cons d rest ih =>
    rw [markParentsDirty, List.takeWhile_cons, List.dropWhile_cons,
        show (if (false : Bool) = true then d ||| 2 else d) = d from rfl]
    by_cases h : (d &&& 1 == 0) = true
    · have h0 : d &&& 1 = 0 := by simpa using h
      rw [if_pos h, if_pos h, if_neg (by simp [h0]), List.map_cons, ih]
      rfl
    · have hnz : (d &&& 1 ≠ 0) := by simpa using h
      rw [if_neg h, if_neg h, if_pos hnz]
      rfl

/-! ## Claim theorems -/

/-- C8: for every transaction and annotation type tag, the single-value lookup returns the
value of the last annotation of that tag added to the transaction (`none` when there is
none), and the multi-value lookup returns all values of that tag in the order they were
added (the annotation list records additions in order). -/
theorem annotation_lookup_spec (tr : Transaction) (ty : Nat) :
    Transaction.annotationValue tr ty
      = ((tr.annots.filter (fun a => a.type == ty)).map Annot.value).getLast?
  ∧ Transaction.annotations tr ty
      = (tr.annots.filter (fun a => a.type == ty)).map Annot.value := by
  constructor
  · exact lastMatch_eq_getLast tr.annots ty
  · rw [Transaction.annotations, annotations_foldl]
    rfl

/-- C9: a freshly constructed transaction carries exactly one time annotation, whose value is
the timestamp given to the constructor, so the time lookup is defined before any `annotate`
call.  (The source defaults the timestamp to `Date.now()`; the timestamp is explicit here.) -/
theorem fresh_transaction_time (s : EditorState) (t : Int) :
    Transaction.annotationValue (EditorState.t s t) timeType = some t
  ∧ ((EditorState.t s t).annots.filter (fun a => a.type == timeType)).length = 1 := by
  constructor <;> rfl

/-- C10: the `EditorState` constructor validates selection ranges only against the upper
document bound: whenever every range's `to` is at most the document length the construction
succeeds and returns the selection unchanged, with no check of the lower bound — in
particular a range with a negative anchor and head is accepted, yielding a state whose
selection contains positions outside the document. -/
theorem mk_checks_only_upper_bound (cfg : Configuration) (vals : List (Nat × Val)) (doc : Doc)
    (sel : EditorSelection)
    (h : ∀ r ∈ sel.ranges, SelectionRange.to' r ≤ (doc.length : Int)) :
    mkEditorState cfg vals doc sel = .ok ⟨cfg, vals, doc, sel⟩ := by
  rw [mkEditorState, if_pos]
  rw [List.all_eq_true]
  intro r hr
  exact decide_eq_true (h r hr)

/-- Witness for C10: a selection range lying entirely at negative positions is accepted by the
state constructor, and the resulting state's selection contains it unchanged. -/
theorem mk_checks_only_upper_bound_witness :
    mkEditorState wCfg [] wDoc ⟨[⟨-5, -3⟩], 0⟩ = .ok ⟨wCfg, [], wDoc, ⟨[⟨-5, -3⟩], 0⟩⟩
  ∧ SelectionRange.from' ⟨-5, -3⟩ < 0 ∧ SelectionRange.to' ⟨-5, -3⟩ ≤ ((wDoc).length : Int) :=
  ⟨mk_checks_only_upper_bound wCfg [] wDoc ⟨[⟨-5, -3⟩], 0⟩ (by decide), by decide, by decide⟩

/-- C6 (amended): marking a node that already carries the self-dirty bit performs no
propagation at all; otherwise the node gains the self-dirty bit and the upward walk marks
the child-dirty bit on every ancestor strictly below the first ancestor that already carries
the child-dirty bit, stopping there and leaving that ancestor and everything above unchanged.
An ancestor carrying only the self-dirty mark does not stop the walk. -/
theorem markDirty_characterization (d : Nat) (anc : List Nat) :
    (d &&& 2 ≠ 0 → markDirty d anc false = (d, anc))
  ∧ (d &&& 2 = 0 →
      markDirty d anc false =
        (d ||| 2,
         (anc.takeWhile (fun a => a &&& 1 == 0)).map (fun a => a ||| 1)
           ++ anc.dropWhile (fun a => a &&& 1 == 0))) := by
  constructor
  · intro h
    rw [markDirty, if_pos h]
  · intro h
    rw [markDirty, if_neg (by simp [h]), markParentsDirty_false_eq]

/-- Witness for C6 (amended): a clean node below a clean parent and a child-dirty grandparent;
the walk marks the parent child-dirty and stops at the grandparent. -/
theorem markDirty_characterization_witness :
    (0 : Nat) &&& 2 = 0 ∧ markDirty 0 [0, 1, 5] false = (2, [1, 1, 5]) := by
  refine ⟨by decide, ?_⟩
  rw [(markDirty_characterization 0 [0, 1, 5]).2 (by decide)]
  decide

/-- C6 counterexample: in a chain where the parent carries only the self-dirty mark (dirty
`2`) and the grandparent is clean, marking the node self-dirty does mark the clean
grandparent child-dirty — the code's walk stops only at the child-dirty *bit*, so it walks
through (and past) the self-dirty parent, contrary to the claim that an ancestor already
carrying a mark ≥ child-dirty stops the walk and is never re-walked. -/
theorem markDirty_claim_counterexample :
    markDirty 0 [2, 0] false = (2, [3, 1])
  ∧ markParentsDirtyClaimed [2, 0] = [2, 0]
  ∧ (markDirty 0 [2, 0] false).2 ≠ markParentsDirtyClaimed [2, 0]
  ∧ ((markDirty 0 [2, 0] false).2.getD 1 0) ≠ 0 := by
  refine ⟨by decide, by decide, by decide, by decide⟩

/-- C7: looking up a field with no value fails with a `RangeError` when required; when not
required it returns `undefined` — except that a field declared in the state's configuration
but not yet initialized fails regardless of the `require` argument. -/
theorem field_lookup_spec (st : EditorState) (id : Nat) :
    (lookupVal st.values id = none → st.configuration.stateFields.contains id = false →
      ( EditorState.field st id true = .error (.rangeError "Field is not present in this state")
      ∧ EditorState.field st id false = .ok none))
  ∧ (lookupVal st.values id = none → st.configuration.stateFields.contains id = true →
      ∀ require, EditorState.field st id require
        = .error (.rangeError "Field has not been initialized yet"))
  ∧ (lookupVal st.values id = none →
      ∃ msg, EditorState.field st id true = .error (.rangeError msg)) := by
  refine ⟨fun hnone hdecl => ⟨?_, ?_⟩, fun hnone hdecl require => ?_, fun hnone => ?_⟩
  · rw [EditorState.field, hnone]
    rw [if_neg (by simpa using hdecl), if_pos rfl]
  · rw [EditorState.field, hnone]
    rw [if_neg (by simpa using hdecl)]
    rfl
  · rw [EditorState.field, hnone, if_pos hdecl]
  · rw [EditorState.field, hnone]
    by_cases hdecl : st.configuration.stateFields.contains id = true
    · exact ⟨"Field has not been initialized yet", by rw [if_pos hdecl]⟩
    · exact ⟨"Field is not present in this state", by rw [if_neg hdecl, if_pos rfl]⟩

/-- Witness for C7: on a state that declares field `7` but has no values, looking up the
undeclared field `5` errors when required and returns `undefined` otherwise, while looking up
the declared-but-uninitialized field `7` errors regardless of `require`. -/
theorem field_lookup_spec_witness :
    EditorState.field wState 5 true = .error (.rangeError "Field is not present in this state")
  ∧ EditorState.field wState 5 false = .ok none
  ∧ EditorState.field wStateDecl 7 true
      = .error (.rangeError "Field has not been initialized yet")
  ∧ EditorState.field wStateDecl 7 false
      = .error (.rangeError "Field has not been initialized yet") := by
  refine ⟨((field_lookup_spec wState 5).1 rfl rfl).1,
          ((field_lookup_spec wState 5).1 rfl rfl).2,
          (field_lookup_spec wStateDecl 7).2.1 rfl rfl true,
          (field_lookup_spec wStateDecl 7).2.1 rfl rfl false⟩

/-- Any state the constructor accepts satisfies the selection invariant. -/
theorem mk_ok_inv {cfg : Configuration} {vals : List (Nat × Val)} {doc : Doc}
    {sel : EditorSelection} {st : EditorState}
    (h : mkEditorState cfg vals doc sel = .ok st) : selectionInBounds st := by
  rw [mkEditorState] at h
  by_cases hall :
      (sel.ranges.all (fun r => decide (SelectionRange.to' r ≤ (doc.length : Int)))) = true
  · rw [if_pos hall] at h
    cases h
    intro r hr
    have := List.all_eq_true.1 hall r hr
    simpa using this
  · rw [if_neg hall] at h
    cases h

/-- Any state `EditorState.create` returns satisfies the selection invariant. -/
theorem create_ok_inv {env : Nat → FieldImpl} {cfg : Configuration} {doc : Doc}
    {selOpt : Option EditorSelection} {st : EditorState}
    (h : EditorState.create env cfg doc selOpt = .ok st) : selectionInBounds st := by
  rw [EditorState.create] at h
  set sel0 := selOpt.getD (EditorSelection.single 0) with hsel0
  set sel := if cfg.allowMultipleSelections then sel0 else EditorSelection.asSingle sel0 with hsel
  cases hmk : mkEditorState cfg [] doc sel with
  | error e => rw [hmk] at h; cases h
  | ok st0 =>
    rw [hmk] at h
    have hinv := mk_ok_inv hmk
    cases hr : cfg.stateFields.foldl
        (fun (acc : Except Err (List (Nat × Val))) id =>
          match acc with
          | .error e => .error e
          | .ok vals =>
            if (lookupVal vals id).getD 0 ≠ 0 then
              .error (.genericError "Duplicate use of state field")
            else .ok (setVal vals id ((env id).init ⟨cfg, vals, doc, sel⟩)))
        (.ok []) with
    | error e => rw [hr] at h; cases h
    | ok values =>
      rw [hr] at h
      cases h
      intro r hr2
      rw [mkEditorState] at hmk
      by_cases hall :
          (sel.ranges.all (fun r => decide (SelectionRange.to' r ≤ (doc.length : Int)))) = true
      · have := List.all_eq_true.1 hall r hr2
        simpa using this
      · rw [if_neg hall] at hmk; cases hmk

/-- Any state `EditorState.applyTransaction` returns satisfies the selection invariant. -/
theorem applyTransaction_ok_inv {env : Nat → FieldImpl} {src : EditorState} {tr : Transaction}
    {st : EditorState} (h : EditorState.applyTransaction env src tr = .ok st) :
    selectionInBounds st := by
  rw [EditorState.applyTransaction] at h
  cases hmk : mkEditorState tr.configuration [] (Transaction.doc tr) tr.selection with
  | error e => rw [hmk] at h; cases h
  | ok st0 =>
    rw [hmk] at h
    cases h
    intro r hr2
    rw [mkEditorState] at hmk
    by_cases hall : (tr.selection.ranges.all
        (fun r => decide (SelectionRange.to' r ≤ ((Transaction.doc tr).length : Int)))) = true
    · have := List.all_eq_true.1 hall r hr2
      simpa using this
    · rw [if_neg hall] at hmk; cases hmk

/-- Any state `EditorState.fromJSON` returns satisfies the selection invariant. -/
theorem fromJSON_ok_inv {env : Nat → FieldImpl} {cfg : Configuration} {json : Option StateJson}
    {st : EditorState} (h : EditorState.fromJSON env cfg json = .ok st) :
    selectionInBounds st := by
  rw [EditorState.fromJSON.eq_def] at h
  cases json with
  | none => cases h
  | some j =>
    dsimp only at h
    cases hd : j.doc with
    | none => rw [hd] at h; cases h
    | some d => rw [hd] at h; exact create_ok_inv h

/-- C5: every successfully constructed state — through the constructor, `create`,
`applyTransaction` or `fromJSON` — has every selection range ending at or before the document
end, and handing the constructor a selection with a range ending past the document end yields
a `RangeError` and no state. -/
theorem state_selection_invariant (cfg : Configuration) (vals : List (Nat × Val)) (doc : Doc)
    (sel : EditorSelection) (st : EditorState) :
    (mkEditorState cfg vals doc sel = .ok st → selectionInBounds st)
  ∧ (∀ env selOpt, EditorState.create env cfg doc selOpt = .ok st → selectionInBounds st)
  ∧ (∀ env src tr, EditorState.applyTransaction env src tr = .ok st → selectionInBounds st)
  ∧ (∀ env json, EditorState.fromJSON env cfg json = .ok st → selectionInBounds st)
  ∧ ((∃ r ∈ sel.ranges, (doc.length : Int) < SelectionRange.to' r) →
      mkEditorState cfg vals doc sel
        = .error (.rangeError "Selection points outside of document")) := by
  refine ⟨fun h => mk_ok_inv h, fun env selOpt h => create_ok_inv h,
          fun env src tr h => applyTransaction_ok_inv h,
          fun env json h => fromJSON_ok_inv h, fun hbad => ?_⟩
  rw [mkEditorState, if_neg]
  intro hall
  obtain ⟨r, hr, hgt⟩ := hbad
  have := List.all_eq_true.1 hall r hr
  simp at this
  omega

/-- Witness for C5: a concrete in-bounds construction satisfies the invariant, and a concrete
out-of-bounds construction fails with the range error. -/
theorem state_selection_invariant_witness :
    selectionInBounds wState
  ∧ mkEditorState wCfg [] wDoc ⟨[⟨0, 9⟩], 0⟩
      = .error (.rangeError "Selection points outside of document") := by
  constructor
  · exact (state_selection_invariant wCfg [] wDoc wSel wState).1 rfl
  · exact (state_selection_invariant wCfg [] wDoc ⟨[⟨0, 9⟩], 0⟩ wState).2.2.2.2
      ⟨⟨0, 9⟩, by decide, by decide⟩

/-- C3: on an open transaction, `change` is the identity for a true empty edit; otherwise it
raises a `RangeError` exactly when the change's bounds fall outside the current document, and
otherwise appends the change to the `ChangeSet`, pushes the resulting document snapshot, and
maps the pending selection through the change. -/
theorem change_spec (tr : Transaction) (c : Change) (m : Option Nat)
    (hOpen : tr.state = none) :
    ((c.from' = c.to' ∧ Change.length c = 0) → Transaction.change tr c m = .ok tr)
  ∧ (¬(c.from' = c.to' ∧ Change.length c = 0) →
      ((c.from' < 0 ∨ c.to' < c.from' ∨ ((Transaction.doc tr).length : Int) < c.to') →
        Transaction.change tr c m = .error (.rangeError "Invalid change"))
      ∧ (¬(c.from' < 0 ∨ c.to' < c.from' ∨ ((Transaction.doc tr).length : Int) < c.to') →
          Transaction.change tr c m =
            .ok { tr with
                  changes := ChangeSet.append tr.changes c m,
                  docs := tr.docs ++ [Change.apply c (Transaction.doc tr)],
                  selection := EditorSelection.mapChange tr.selection c })) := by
  have hopen : Transaction.ensureOpen tr = .ok () := by
    rw [Transaction.ensureOpen, hOpen]
  refine ⟨fun hno => ?_, fun hno => ⟨fun hbad => ?_, fun hok => ?_⟩⟩
  · rw [Transaction.change, hopen]
    exact if_pos hno
  · rw [Transaction.change, hopen]
    rw [if_neg hno, if_pos hbad]
  · rw [Transaction.change, hopen]
    rw [if_neg hno, if_neg hok]

/-- Witness for C3: on a fresh open transaction over `"abc"`, the empty edit is a no-op, an
out-of-bounds change raises the range error, and a valid change appends itself, its document
snapshot and the mapped selection. -/
theorem change_spec_witness :
    Transaction.change wTr ⟨1, 1, []⟩ none = .ok wTr
  ∧ Transaction.change wTr ⟨2, 9, []⟩ none = .error (.rangeError "Invalid change")
  ∧ Transaction.change wTr wChange none =
      .ok { wTr with
            changes := ChangeSet.append wTr.changes wChange none,
            docs := wTr.docs ++ [Change.apply wChange (Transaction.doc wTr)],
            selection := EditorSelection.mapChange wTr.selection wChange } := by
  refine ⟨(change_spec wTr ⟨1, 1, []⟩ none rfl).1 (by decide),
          ((change_spec wTr ⟨2, 9, []⟩ none rfl).2 (by decide)).1 (by decide),
          ((change_spec wTr wChange none rfl).2 (by decide)).2 (by decide)⟩

/-- On a frozen transaction, the `forEachRange` loop with a state-preserving, non-failing
callback runs to completion without unfreezing the transaction. -/
theorem go_all_ok_frozen
    (f : SelectionRange → Transaction → Except Err (SelectionRange × Transaction))
    (s : EditorState)
    (hf : ∀ r t, ∃ r' t', f r t = .ok (r', t') ∧ t'.state = t.state)
    (ranges : List SelectionRange) :
    ∀ (start : Nat) (tr : Transaction) (acc : List SelectionRange), tr.state = some s →
      ∃ trF accF, forEachRangeGo f start ranges tr acc = .ok (trF, accF)
        ∧ trF.state = some s := by
  induction ranges with
  | nil => exact fun start tr acc h => ⟨tr, acc, rfl, h⟩
  | cons r rest ih =>
    intro start tr acc h
    obtain ⟨r', t', hok, hst⟩ :=
      hf (SelectionRange.mapThrough r (ChangeSet.partialMapping tr.changes start)) tr
    rw [forEachRangeGo]
    dsimp only
    rw [hok]
    dsimp only
    exact ih start t' _ (hst.trans h)

/-- C4: the first `apply()` on an open transaction computes the derived state through
`applyTransaction` and caches it; applying again returns the very same cached state and
transaction; and every mutating method — `change`, `annotate`, `setSelection`,
`forEachRange`, `scrollIntoView`, `replaceExtensions`, `reconfigure` — called on the applied
transaction fails with the invalid-operation error instead of modifying it. -/
theorem apply_memoizes_and_freezes (env : Nat → FieldImpl) (tr : Transaction)
    (s : EditorState) (tr' : Transaction) (h0 : tr.state = none)
    (h : Transaction.apply env tr = .ok (s, tr')) :
    EditorState.applyTransaction env tr.startState tr = .ok s
  ∧ tr' = { tr with state := some s }
  ∧ Transaction.apply env tr' = .ok (s, tr')
  ∧ (∀ c m, Transaction.change tr' c m = .error (.genericError frozenMsg))
  ∧ (∀ anns, Transaction.annotate tr' anns = .error (.genericError frozenMsg))
  ∧ (∀ sel, Transaction.setSelection tr' sel = .error (.genericError frozenMsg))
  ∧ Transaction.scrollIntoView tr' = .error (.genericError frozenMsg)
  ∧ (∀ cfg, Transaction.replaceExtensions tr' cfg = .error (.genericError frozenMsg))
  ∧ (∀ cfg, Transaction.reconfigure tr' cfg = .error (.genericError frozenMsg))
  ∧ (∀ f, (∀ r t, ∃ r' t', f r t = .ok (r', t') ∧ t'.state = t.state) →
      Transaction.forEachRange tr' f = .error (.genericError frozenMsg)) := by
  rw [Transaction.apply, h0] at h
  cases hap : EditorState.applyTransaction env tr.startState tr with
  | error e => rw [hap] at h; cases h
  | ok s0 =>
    rw [hap] at h
    dsimp only at h
    injection h with h1
    simp only [Prod.mk.injEq] at h1
    obtain ⟨hs, htr'⟩ := h1
    subst hs
    subst htr'
    have hopen : Transaction.ensureOpen { tr with state := some s0 }
        = .error (.genericError frozenMsg) := by
      rw [Transaction.ensureOpen]
    refine ⟨rfl, rfl, rfl, ?_, ?_, ?_, ?_, ?_, ?_, ?_⟩
    · intro c m; rw [Transaction.change, hopen]
    · intro anns; rw [Transaction.annotate, hopen]
    · intro sel; rw [Transaction.setSelection, hopen]
    · rw [Transaction.scrollIntoView, hopen]
    · intro cfg; rw [Transaction.replaceExtensions, hopen]
    · intro cfg; rw [Transaction.reconfigure, hopen]
    · intro f hf
      rw [Transaction.forEachRange]
      dsimp only
      obtain ⟨trF, accF, hgo, hstF⟩ :=
        go_all_ok_frozen f s0 hf ({ tr with state := some s0 } : Transaction).selection.ranges
          ({ tr with state := some s0 } : Transaction).changes.changes.length
          { tr with state := some s0 } [] rfl
      rw [hgo]
      dsimp only
      have hopenF : Transaction.ensureOpen trF = .error (.genericError frozenMsg) := by
        rw [Transaction.ensureOpen, hstF]
      rw [Transaction.setSelection, hopenF]

/-- Witness for C4: applying a fresh transaction over `"abc"` yields the derived state and
caches it; re-applying returns the same pair, and each mutator on the applied transaction
fails with the invalid-operation error. -/
theorem apply_memoizes_and_freezes_witness :
    wTr.state = none
  ∧ Transaction.apply wEnv wTr = .ok (wState, wTrApplied)
  ∧ Transaction.apply wEnv wTrApplied = .ok (wState, wTrApplied)
  ∧ Transaction.change wTrApplied ⟨0, 1, []⟩ none = .error (.genericError frozenMsg)
  ∧ Transaction.annotate wTrApplied [⟨3, 7⟩] = .error (.genericError frozenMsg)
  ∧ Transaction.setSelection wTrApplied wSel = .error (.genericError frozenMsg)
  ∧ Transaction.scrollIntoView wTrApplied = .error (.genericError frozenMsg)
  ∧ Transaction.replaceExtensions wTrApplied wCfg = .error (.genericError frozenMsg)
  ∧ Transaction.reconfigure wTrApplied wCfg = .error (.genericError frozenMsg)
  ∧ Transaction.forEachRange wTrApplied wF = .error (.genericError frozenMsg) := by
  have happ : Transaction.apply wEnv wTr = .ok (wState, wTrApplied) := rfl
  have H := apply_memoizes_and_freezes wEnv wTr wState wTrApplied rfl happ
  exact ⟨rfl, happ, H.2.2.1, H.2.2.2.1 ⟨0, 1, []⟩ none, H.2.2.2.2.1 [⟨3, 7⟩],
         H.2.2.2.2.2.1 wSel, H.2.2.2.2.2.2.1, H.2.2.2.2.2.2.2.1 wCfg,
         H.2.2.2.2.2.2.2.2.1 wCfg,
         H.2.2.2.2.2.2.2.2.2 wF (fun r t => ⟨r, t, rfl, rfl⟩)⟩

/-- `applyAll` on `[]`. -/
theorem applyAll_nil (d : Doc) : applyAll [] d = d := rfl

/-- `applyAll` peels one change. -/
theorem applyAll_cons (c : Change) (cs : List Change) (d : Doc) :
    applyAll (c :: cs) d = applyAll cs (Change.apply c d) := rfl

/-- `applyAll` splits over append. -/
theorem applyAll_append (l1 l2 : List Change) (d : Doc) :
    applyAll (l1 ++ l2) d = applyAll l2 (applyAll l1 d) := by
  rw [applyAll, applyAll, applyAll, List.foldl_append]

/-- Core inversion fact: a change valid in a document, applied and then undone by its
inverse, restores the document. -/
theorem invert_apply (c : Change) (d : Doc) (h : Change.validb c d = true) :
    Change.apply (Change.invert c d) (Change.apply c d) = d := by
  rw [Change.validb] at h
  simp only [Bool.and_eq_true, decide_eq_true_eq] at h
  obtain ⟨⟨h0, h1⟩, h2⟩ := h
  rw [Change.apply, Change.apply, Change.invert]
  dsimp only
  have hfl : (d.take c.from'.toNat).length = c.from'.toNat := by
    rw [List.length_take]
    omega
  have hLnat : (c.from' + (c.text.length : Int)).toNat = c.from'.toNat + c.text.length := by
    omega
  have htake : (d.take c.from'.toNat ++ c.text ++ d.drop c.to'.toNat).take c.from'.toNat
      = d.take c.from'.toNat := by
    rw [List.append_assoc]
    exact List.take_left' hfl
  have hfl2 : (d.take c.from'.toNat ++ c.text).length = c.from'.toNat + c.text.length := by
    rw [List.length_append, hfl]
  have hdrop : (d.take c.from'.toNat ++ c.text ++ d.drop c.to'.toNat).drop
      (c.from'.toNat + c.text.length) = d.drop c.to'.toNat := List.drop_left' hfl2
  rw [hLnat, htake, hdrop]
  have hdd : d.drop c.to'.toNat = (d.drop c.from'.toNat).drop (c.to'.toNat - c.from'.toNat) := by
    rw [List.drop_drop]
    congr 1
    omega
  rw [List.append_assoc, hdd, List.take_append_drop, List.take_append_drop]

/-- A well-formed chain with no changes has no snapshots. -/
theorem chain_nil_docs (d0 : Doc) (docs : List Doc) (h : chainWF d0 [] docs = true) :
    docs = [] := by
  cases docs with
  | nil => rfl
  | cons d ds => simp [chainWF] at h

/-- In a well-formed chain the last snapshot is the result of applying all changes. -/
theorem chain_getLastD (d0 : Doc) (cs : List Change) (docs : List Doc)
    (h : chainWF d0 cs docs = true) : docs.getLastD d0 = applyAll cs d0 := by
  induction cs generalizing d0 docs with
  | nil => rw [chain_nil_docs d0 docs h]; rfl
  | cons c cs ih =>
    cases docs with
    | nil => simp [chainWF] at h
    | cons d ds =>
      rw [chainWF] at h
      simp only [Bool.and_eq_true, beq_iff_eq] at h
      obtain ⟨⟨hv, hd⟩, hch⟩ := h
      rw [applyAll_cons, ← hd, List.getLastD_cons]
      exact ih d ds hch

/-- The indexed inversion loop of `invertedChanges` computes the forward inverse list. -/
theorem range_map_invert (d0 : Doc) (cs : List Change) (docs : List Doc)
    (h : chainWF d0 cs docs = true) :
    (List.range cs.length).map (fun i =>
        Change.invert (cs.getD i ⟨0, 0, []⟩)
          (if i = 0 then d0 else docs.getD (i - 1) []))
      = invs d0 cs := by
  induction cs generalizing d0 docs with
  | nil => rfl
  | cons c cs ih =>
    cases docs with
    | nil => simp [chainWF] at h
    | cons d ds =>
      rw [chainWF] at h
      simp only [Bool.and_eq_true, beq_iff_eq] at h
      obtain ⟨⟨hv, hd⟩, hch⟩ := h
      rw [List.length_cons, List.range_succ_eq_map, List.map_cons, List.map_map, invs]
      congr 1
      rw [← ih (Change.apply c d0) ds (by rw [← hd]; exact hch)]
      apply List.map_congr_left
      intro i hi
      cases i with
      | zero =>
        show Change.invert (cs.getD 0 ⟨0, 0, []⟩) d = _
        rw [hd]
        rfl
      | succ j => rfl

/-- Undoing a well-formed chain: applying the reversed inverse list to the final document
restores the initial one. -/
theorem applyAll_invs_reverse (d0 : Doc) (cs : List Change) (docs : List Doc)
    (h : chainWF d0 cs docs = true) :
    applyAll ((invs d0 cs).reverse) (applyAll cs d0) = d0 := by
  induction cs generalizing d0 docs with
  | nil => rfl
  | cons c cs ih =>
    cases docs with
    | nil => simp [chainWF] at h
    | cons d ds =>
      rw [chainWF] at h
      simp only [Bool.and_eq_true, beq_iff_eq] at h
      obtain ⟨⟨hv, hd⟩, hch⟩ := h
      rw [invs, List.reverse_cons, applyAll_append, applyAll_cons, applyAll_nil, applyAll_cons]
      rw [ih (Change.apply c d0) ds (by rw [← hd]; exact hch)]
      exact invert_apply c d0 hv

/-- C1: for a well-formed transaction, applying the changes of `invertedChanges()` in order
to the end document reconstructs exactly the start state's document; the returned mirror
indices are the original indices `i` mapped to `length - i - 1`; and a transaction with zero
changes yields the empty `ChangeSet`. -/
theorem invertedChanges_correct (tr : Transaction) (h : transactionWF tr = true) :
    applyAll (Transaction.invertedChanges tr).changes (Transaction.doc tr)
      = tr.startState.doc
  ∧ (Transaction.invertedChanges tr).mirror
      = tr.changes.mirror.map (fun i => tr.changes.changes.length - i - 1)
  ∧ (tr.changes.changes = [] → Transaction.invertedChanges tr = ChangeSet.empty) := by
  rw [transactionWF, Bool.and_eq_true] at h
  obtain ⟨hch, hmir⟩ := h
  refine ⟨?_, ?_, fun hnil => ?_⟩
  · rw [Transaction.invertedChanges]
    by_cases hz : tr.changes.changes.length = 0
    · rw [if_pos hz]
      have hnil : tr.changes.changes = [] := List.length_eq_zero.1 hz
      rw [hnil] at hch
      rw [Transaction.doc, chain_nil_docs tr.startState.doc tr.docs hch]
      rfl
    · rw [if_neg hz]
      dsimp only
      rw [List.map_reverse, range_map_invert tr.startState.doc tr.changes.changes tr.docs hch]
      rw [Transaction.doc, chain_getLastD tr.startState.doc tr.changes.changes tr.docs hch]
      exact applyAll_invs_reverse tr.startState.doc tr.changes.changes tr.docs hch
  · rw [Transaction.invertedChanges]
    by_cases hz : tr.changes.changes.length = 0
    · rw [if_pos hz]
      have hmnil : tr.changes.mirror = [] := by
        cases hm : tr.changes.mirror with
        | nil => rfl
        | cons x xs =>
          rw [hm, hz] at hmir
          simp at hmir
      rw [hmnil]
      rfl
    · rw [if_neg hz]
      dsimp only
      by_cases hm : tr.changes.mirror.length ≠ 0
      · rw [if_pos hm]
      · rw [if_neg hm]
        have : tr.changes.mirror = [] := by
          rw [← List.length_eq_zero]
          simpa using hm
        rw [this]
        rfl
  · rw [Transaction.invertedChanges, if_pos (by rw [hnil]; rfl)]

/-- Witness for C1: a transaction over `"abc"` carrying the single change replacing `"b"`
with `"XY"` is well-formed, and inverting it restores `"abc"` from `"aXYc"`. -/
theorem invertedChanges_correct_witness :
    transactionWF wTrC1 = true
  ∧ applyAll (Transaction.invertedChanges wTrC1).changes (Transaction.doc wTrC1)
      = wTrC1.startState.doc
  ∧ Transaction.doc wTrC1 = ['a', 'X', 'Y', 'c'] := by
  refine ⟨by decide, (invertedChanges_correct wTrC1 (by decide)).1, by decide⟩

/-- The `forEachRange` loop refines the claim's loop: as long as the callback only ever
appends to the change set, the code's `partialMapping` indices select exactly the changes
appended since the call started (for the callback's argument) and the changes the last
invocation appended (for remapping the collected ranges). -/
theorem go_eq_claim
    (f : SelectionRange → Transaction → Except Err (SelectionRange × Transaction))
    (hf : ∀ r t r' t', f r t = .ok (r', t') →
        ∃ δ, t'.changes.changes = t.changes.changes ++ δ)
    (ranges : List SelectionRange) :
    ∀ (orig appended : List Change) (tr : Transaction) (acc : List SelectionRange),
      tr.changes.changes = orig ++ appended →
      forEachRangeGo f orig.length ranges tr acc
        = forEachRangeClaimGo f ranges tr appended acc := by
  induction ranges with
  | nil => intro orig appended tr acc hinv; rfl
  | cons r rest ih =>
    intro orig appended tr acc hinv
    rw [forEachRangeGo, forEachRangeClaimGo]
    dsimp only
    have hmap : ChangeSet.partialMapping tr.changes orig.length = appended := by
      rw [ChangeSet.partialMapping, hinv, List.drop_left]
    rw [hmap]
    cases hcall : f (SelectionRange.mapThrough r appended) tr with
    | error e => rfl
    | ok p =>
      obtain ⟨result, tr'⟩ := p
      obtain ⟨δ, hδ⟩ := hf _ _ _ _ hcall
      dsimp only
      have hdelta : tr'.changes.changes.drop tr.changes.changes.length = δ := by
        rw [hδ, List.drop_left]
      rw [hdelta]
      by_cases hlt : tr.changes.changes.length < tr'.changes.changes.length
      · rw [if_pos hlt]
        have hpm : ChangeSet.partialMapping tr'.changes tr.changes.changes.length = δ := by
          rw [ChangeSet.partialMapping, hδ, List.drop_left]
        rw [hpm]
        exact ih orig (appended ++ δ) tr' _ (by rw [hδ, hinv, List.append_assoc])
      · rw [if_neg hlt]
        have hlen := congrArg List.length hδ
        rw [List.length_append] at hlen
        have hδnil : δ = [] := List.length_eq_zero.1 (by omega)
        subst hδnil
        have hid : acc.map (fun q => SelectionRange.mapThrough q []) = acc := by
          simp [SelectionRange.mapThrough, mapPosList]
        rw [hid, List.append_nil] at *
        exact ih orig appended tr' _ (by rw [hδ]; exact hinv)

/-- C2: on an open transaction, for any callback that mutates the transaction only by
appending changes, `forEachRange` behaves exactly as the claim describes it: the i-th
invocation receives the i-th original range remapped through all changes appended since the
call started, after each invocation the collected ranges are remapped through the changes
that invocation appended, and the final selection is built from the collected ranges with
the original primary index. -/
theorem forEachRange_matches_claim (tr : Transaction)
    (f : SelectionRange → Transaction → Except Err (SelectionRange × Transaction))
    (hOpen : tr.state = none)
    (hf : ∀ r t r' t', f r t = .ok (r', t') →
        ∃ δ, t'.changes.changes = t.changes.changes ++ δ) :
    Transaction.forEachRange tr f = Transaction.forEachRangeClaimed tr f := by
  rw [Transaction.forEachRange, Transaction.forEachRangeClaimed]
  rw [go_eq_claim f hf tr.selection.ranges tr.changes.changes [] tr []
      (by rw [List.append_nil])]

/-- Witness for C2: on an open transaction over `"abc"` with the identity callback, the code
path and the claim's description coincide. -/
theorem forEachRange_matches_claim_witness :
    wTr.state = none
  ∧ Transaction.forEachRange wTr wF = Transaction.forEachRangeClaimed wTr wF :=
  ⟨rfl, forEachRange_matches_claim wTr wF rfl
    (fun r t r' t' h => by
      simp only [wF, Except.ok.injEq, Prod.mk.injEq] at h
      obtain ⟨h1, h2⟩ := h
      subst h2
      exact ⟨[], by rw [List.append_nil]⟩)⟩
